import Mathlib

/-
  Shallow embedding of `src/applier.rs` from the patch-rs repository.

  The Rust module defines two appliers over a parsed `Patch`:
  * `apply`              - strict, line-number anchored application;
  * `find_replace_apply` - fuzzy, content-anchored application.

  Machine integers (`u64`, `usize`) are modelled as `Nat`; the Rust code
  only increments cursors and subtracts after a positivity test, so no
  wrap-around is reachable.  Fallible paths are modelled with explicit
  result inductives.  `Vec<&str>` indexing with a range in Rust panics
  when the range end exceeds the length; that reachable panic is modelled
  explicitly by a `crashed` outcome.
-/

namespace PatchRs

/-- `Line` from `ast.rs`: one tagged line of a hunk. -/
inductive Line where
  | context (text : String)
  | add (text : String)
  | remove (text : String)
deriving DecidableEq, Repr

/-- `Range` from `ast.rs`: `start` is a 1-based line number (`u64`). -/
structure Range where
  start : Nat
  count : Nat
deriving DecidableEq, Repr

/-- `Hunk` from `ast.rs` (the `range_hint` free-text label is unused by the appliers). -/
structure Hunk where
  old_range : Range
  new_range : Range
  lines : List Line
deriving DecidableEq, Repr

/-- `Patch` from `ast.rs`, restricted to the fields the appliers read
(`old`/`new` file metadata is opaque pass-through). -/
structure Patch where
  hunks : List Hunk
  end_newline : Bool
deriving DecidableEq, Repr

/-- `ApplyError` from `applier.rs`. -/
inductive ApplyError where
  | lineOutOfBounds (line : Nat) (total_lines : Nat)
  | contextMismatch (line : Nat) (expected : String) (actual : String)
  | hunkNotFound
deriving DecidableEq, Repr

/-- `Result<String, ApplyError>` as returned by `apply`. -/
inductive ApplyResult where
  | ok (s : String)
  | err (e : ApplyError)
deriving DecidableEq, Repr

/-- Outcome of `find_replace_apply`: a Rust `Result`, or the reachable
panic of the out-of-bounds slice `content_lines[i..i + old_lines.len()]`. -/
inductive FrResult where
  | ok (s : String)
  | err (e : ApplyError)
  | crashed
deriving DecidableEq, Repr

/-- Strip one trailing carriage return (Rust `lines()` strips `"\r"`
only in front of a consumed `"\n"`).  The accumulator holds the current
line reversed, so the trailing `'\r'` is its head. -/
def stripCR : List Char → List Char
  | [] => []
  | c :: rest => if c = '\r' then rest else c :: rest

/-- Worker for `splitLines`; `acc` is the current (unfinished) line, reversed. -/
def linesAux : List Char → List Char → List String
  | [], acc => if acc.isEmpty then [] else [String.mk acc.reverse]
  | c :: cs, acc =>
    if c = '\n' then String.mk (stripCR acc).reverse :: linesAux cs []
    else linesAux cs (c :: acc)

/-- Rust `str::lines()` collected into a list: split at `"\n"` (also
consuming a preceding `"\r"`), the final line terminator optional and
producing no empty trailing element. -/
def splitLines (s : String) : List String :=
  linesAux s.data []

/-- Rust `Vec::join("\n")`: interleave a single terminator between elements. -/
def joinLines : List String → String
  | [] => ""
  | [x] => x
  | x :: xs => x ++ "\n" ++ joinLines xs

/-- The final `end_newline` adjustment of `apply` (`applier.rs` lines 164-170):
append one `"\n"` iff the joined output is non-empty and the flag is set. -/
def endAdjust (en : Bool) (s : String) : String :=
  if !s.isEmpty && en then s ++ "\n" else s

/-- Worker for the pre-hunk copy loop, recursing on the number of
remaining iterations (`target - current`, fixed at entry): each round of
Rust's `while current_line < start` checks the bound, copies one line and
increments the cursor. -/
def copyN (lines : List String) : Nat → Nat → Except ApplyError (List String × Nat)
  | current, 0 => .ok ([], current)
  | current, n + 1 =>
    if h : current < lines.length then
      match copyN lines (current + 1) n with
      | .ok (out, c) => .ok (lines.get ⟨current, h⟩ :: out, c)
      | .error e => .error e
    else .error (.lineOutOfBounds (current + 1) lines.length)

/-- The pre-hunk copy loop of `apply` (`applier.rs` lines 103-112): copy
input lines from `current` up to `target`, failing with `LineOutOfBounds`
if the cursor reaches the end of the input first.  The loop runs exactly
`target - current` times (zero when `current ≥ target`). -/
def copyUpTo (lines : List String) (current target : Nat) :
    Except ApplyError (List String × Nat) :=
  copyN lines current (target - current)

/-- The per-hunk walk of `apply` (`applier.rs` lines 114-154): check and
emit each hunk line, advancing the hunk-local cursor `pos` on `Context`
and `Remove`.  Returns the lines pushed to the output and the final cursor. -/
def processHunkLines (lines : List String) :
    List Line → Nat → Except ApplyError (List String × Nat)
  | [], pos => .ok ([], pos)
  | .context t :: rest, pos =>
    if h : pos < lines.length then
      if lines.get ⟨pos, h⟩ = t then
        match processHunkLines lines rest (pos + 1) with
        | .ok (out, p) => .ok (t :: out, p)
        | .error e => .error e
      else .error (.contextMismatch (pos + 1) t (lines.get ⟨pos, h⟩))
    else .error (.lineOutOfBounds (pos + 1) lines.length)
  | .add t :: rest, pos =>
    match processHunkLines lines rest pos with
    | .ok (out, p) => .ok (t :: out, p)
    | .error e => .error e
  | .remove t :: rest, pos =>
    if h : pos < lines.length then
      if lines.get ⟨pos, h⟩ = t then processHunkLines lines rest (pos + 1)
      else .error (.contextMismatch (pos + 1) t (lines.get ⟨pos, h⟩))
    else .error (.lineOutOfBounds (pos + 1) lines.length)

/-- `applier.rs` lines 97-101: 0-based start, with a declared start of 0
clamped to 0 rather than underflowing. -/
def clampedStart (h : Hunk) : Nat :=
  if h.old_range.start > 0 then h.old_range.start - 1 else 0

/-- The hunk loop of `apply` plus the trailing copy (`applier.rs`
lines 95-162), with the output assembled as a list of lines. -/
def applyHunks (lines : List String) :
    List Hunk → Nat → Except ApplyError (List String)
  | [], current => .ok (lines.drop current)
  | h :: rest, current =>
    match copyUpTo lines current (clampedStart h) with
    | .error e => .error e
    | .ok (pre, cur1) =>
      match processHunkLines lines h.lines cur1 with
      | .error e => .error e
      | .ok (mid, cur2) =>
        match applyHunks lines rest cur2 with
        | .error e => .error e
        | .ok tail => .ok (pre ++ mid ++ tail)

/-- `apply` from `applier.rs` (lines 90-171). -/
def apply (patch : Patch) (content : String) : ApplyResult :=
  match applyHunks (splitLines content) patch.hunks 0 with
  | .error e => .err e
  | .ok out => .ok (endAdjust patch.end_newline (joinLines out))

/-- The `filter_map` of `find_replace_apply` gathering `Context`/`Remove`
texts (`applier.rs` lines 193-200). -/
def oldTexts : List Line → List String
  | [] => []
  | .context t :: rest => t :: oldTexts rest
  | .remove t :: rest => t :: oldTexts rest
  | .add _ :: rest => oldTexts rest

/-- The `filter_map` of `find_replace_apply` gathering `Context`/`Add`
texts (`applier.rs` lines 202-210). -/
def newTexts : List Line → List String
  | [] => []
  | .context t :: rest => t :: newTexts rest
  | .add t :: rest => t :: newTexts rest
  | .remove _ :: rest => newTexts rest

/-- The "old" block of a hunk: its `Context`/`Remove` texts in order. -/
def oldLines (h : Hunk) : List String := oldTexts h.lines

/-- The "new" block of a hunk: its `Context`/`Add` texts in order. -/
def newLines (h : Hunk) : List String := newTexts h.lines

/-- The distance computation of `applier.rs` lines 220-224, branch for branch. -/
def natDist (i target : Nat) : Nat :=
  if i ≥ target then i - target else target - i

/-- One iteration of the candidate scan (`applier.rs` lines 218-230):
if the window at `i` equals the old block, keep `(i, distance)` when it is
the first match or strictly closer than the best so far. -/
def scanStep (content old : List String) (target : Nat)
    (best : Option (Nat × Nat)) (i : Nat) : Option (Nat × Nat) :=
  if (content.drop i).take old.length = old then
    match best with
    | none => some (i, natDist i target)
    | some (bi, bd) =>
      if natDist i target < bd then some (i, natDist i target) else some (bi, bd)
  else best

/-- The scan folded over the first `n` candidate offsets. -/
def scanFold (content old : List String) (target n : Nat) : Option (Nat × Nat) :=
  (List.range n).foldl (scanStep content old target) none

/-- The full candidate scan of `find_replace_apply`: offsets
`0 ..= content.len().saturating_sub(old.len())`, returning the best index. -/
def scanBest (content old : List String) (target : Nat) : Option Nat :=
  (scanFold content old target (content.length - old.length + 1)).map Prod.fst

/-- Outcome of processing one hunk in `find_replace_apply`. -/
inductive StepOut where
  | next (ls : List String)
  | notFound
  | crashed
deriving DecidableEq, Repr

/-- One hunk of `find_replace_apply` (`applier.rs` lines 191-238).
When `old.length > content.length` the Rust scan still runs `i = 0`
(the inclusive range `0..=saturating_sub` is never empty) and the slice
`content_lines[0..old_lines.len()]` is out of bounds: the process panics.
Otherwise the best-match window is spliced out for the new block. -/
def frStep (content : List String) (h : Hunk) : StepOut :=
  let old := oldLines h
  if old.length > content.length then .crashed
  else
    match scanBest content old h.old_range.start with
    | some i => .next (content.take i ++ newLines h ++ content.drop (i + old.length))
    | none => .notFound

/-- The hunk loop of `find_replace_apply`, threading the working lines. -/
def frGo : List String → List Hunk → FrResult
  | content, [] => .ok (joinLines content)
  | content, h :: rest =>
    match frStep content h with
    | .next c => frGo c rest
    | .notFound => .err .hunkNotFound
    | .crashed => .crashed

/-- `find_replace_apply` from `applier.rs` (lines 186-244). -/
def find_replace_apply (patch : Patch) (content : String) : FrResult :=
  frGo (splitLines content) patch.hunks

/-! ### Claim-facing definitions -/

/-- `i` is a genuine occurrence of `old` in `content`: the window starting
at `i` fits and equals `old`. -/
def IsMatch (content old : List String) (i : Nat) : Prop :=
  i + old.length ≤ content.length ∧ (content.drop i).take old.length = old

/-- The hypothesis of the round-trip claim, as the spec states it: the
hunk's old block sits exactly at its declared (clamped, 0-based) start. -/
def DeclaredMatch (lines : List String) (h : Hunk) : Prop :=
  clampedStart h + (oldLines h).length ≤ lines.length ∧
    (lines.drop (clampedStart h)).take (oldLines h).length = oldLines h

/-- Every hunk of the patch matches at its declared position. -/
def DeclaredMatchAll (lines : List String) (p : Patch) : Prop :=
  ∀ h ∈ p.hunks, DeclaredMatch lines h

/-- Hunks are sequentially ordered: each clamped start is at or past the
end of the previous hunk's old block (the cursor discipline `apply` assumes). -/
def seqOrdered (cur : Nat) : List Hunk → Bool
  | [] => true
  | h :: rest =>
    decide (cur ≤ clampedStart h) &&
      seqOrdered (clampedStart h + (oldLines h).length) rest

/-- Modelled from the spec's words (refinement side of the round-trip
claim): the input with each hunk's old block replaced by its new block and
all surrounding lines copied through unchanged. -/
def specReplaceBlocks (lines : List String) : List Hunk → Nat → List String
  | [], cur => lines.drop cur
  | h :: rest, cur =>
    (lines.drop cur).take (clampedStart h - cur) ++ newLines h ++
      specReplaceBlocks lines rest (clampedStart h + (oldLines h).length)

/-- Remove one line terminator at the very end of a character list. -/
def stripLastNL : List Char → List Char
  | [] => []
  | c :: cs => if c = '\n' ∧ cs = [] then [] else c :: stripLastNL cs

/-- `e` is the text of some `Context` or `Remove` entry of some hunk of `p`. -/
def expectedFromPatch (p : Patch) (e : String) : Bool :=
  p.hunks.any fun hu =>
    hu.lines.any fun l => l == Line.context e || l == Line.remove e

instance (content old : List String) (i : Nat) : Decidable (IsMatch content old i) := by
  unfold IsMatch; exact inferInstance

instance (lines : List String) (h : Hunk) : Decidable (DeclaredMatch lines h) := by
  unfold DeclaredMatch; exact inferInstance

instance (lines : List String) (p : Patch) : Decidable (DeclaredMatchAll lines p) := by
  unfold DeclaredMatchAll; exact inferInstance

/-! ### Concrete patches used as test vectors (from spec §8 and the repo's tests) -/

/-- Spec scenario A: replace `"line 2"` with `"new line 2"` at declared start 2. -/
def scenAPatch : Patch :=
  ⟨[⟨⟨2, 1⟩, ⟨2, 1⟩, [.remove "line 2", .add "new line 2"]⟩], true⟩

/-- Spec scenario C: old block `["line2","line3"]`, declared start 1,
replaced by `["new2","new3"]`. -/
def scenCPatch : Patch :=
  ⟨[⟨⟨1, 2⟩, ⟨1, 2⟩, [.remove "line2", .remove "line3", .add "new2", .add "new3"]⟩], true⟩

/-- Spec scenario D: context `"A"`, `"B"`, then removal of `"C"`. -/
def scenDPatch : Patch :=
  ⟨[⟨⟨1, 3⟩, ⟨1, 3⟩, [.context "A", .context "B", .remove "C", .add "D"]⟩], true⟩

/-- The repo's context-mismatch test: context `"A"`, remove `"X"`, add `"Y"`, context `"C"`. -/
def mismatchPatch : Patch :=
  ⟨[⟨⟨1, 3⟩, ⟨1, 3⟩, [.context "A", .remove "X", .add "Y", .context "C"]⟩], true⟩

/-- Two hunks both declared at start 1: each matches the input at its declared
position, yet the second is processed after the cursor has moved past it. -/
def unorderedPatch : Patch :=
  ⟨[⟨⟨1, 2⟩, ⟨1, 2⟩, [.context "A", .context "B"]⟩,
    ⟨⟨1, 1⟩, ⟨1, 1⟩, [.context "A"]⟩], false⟩

/-- The repo's hunk-not-found test: old block `["lineX"]` absent from the input. -/
def notFoundPatch : Patch :=
  ⟨[⟨⟨1, 1⟩, ⟨1, 1⟩, [.remove "lineX", .add "lineX modified"]⟩], true⟩

/-- A hunk whose old block (2 lines) is longer than a 1-line input. -/
def tooLongPatch : Patch :=
  ⟨[⟨⟨1, 2⟩, ⟨1, 2⟩, [.remove "a", .remove "b"]⟩], true⟩

/-- A hunk removing one line, to be applied to empty content. -/
def removeOnEmptyPatch : Patch :=
  ⟨[⟨⟨1, 1⟩, ⟨1, 1⟩, [.remove "X", .add "Y"]⟩], true⟩

/-- A hunk declared far past the end of a 1-line input. -/
def farStartPatch : Patch :=
  ⟨[⟨⟨5, 1⟩, ⟨5, 1⟩, [.context "Z"]⟩], true⟩

/-- A pure-insertion hunk (no context, no removals) declared at start 2. -/
def insertHunk : Hunk := ⟨⟨2, 0⟩, ⟨2, 1⟩, [.add "x"]⟩

end PatchRs

namespace PatchRs

/-! ### Helper lemmas: error shapes and cursor bounds of the strict applier -/

theorem copyN_err_shape (lines : List String) :
    ∀ (n cur : Nat) (e : ApplyError), copyN lines cur n = .error e →
      ∃ l t, e = .lineOutOfBounds l t := by
  intro n
  induction n with
  | zero => intro cur e h; simp [copyN] at h
  | succ k ih =>
    intro cur e h
    simp only [copyN] at h
    by_cases hl : cur < lines.length
    · rw [dif_pos hl] at h
      cases hrec : copyN lines (cur + 1) k with
      | ok p => rw [hrec] at h; simp at h
      | error e' =>
        rw [hrec] at h
        simp at h
        subst h
        exact ih (cur + 1) e' hrec
    · rw [dif_neg hl] at h
      simp at h
      exact ⟨cur + 1, lines.length, h.symm⟩

theorem copyN_err_exact (lines : List String) :
    ∀ (n cur : Nat) (e : ApplyError), cur ≤ lines.length →
      copyN lines cur n = .error e →
      e = .lineOutOfBounds (lines.length + 1) lines.length := by
  intro n
  induction n with
  | zero => intro cur e _ h; simp [copyN] at h
  | succ k ih =>
    intro cur e hcur h
    simp only [copyN] at h
    by_cases hl : cur < lines.length
    · rw [dif_pos hl] at h
      cases hrec : copyN lines (cur + 1) k with
      | ok p => rw [hrec] at h; simp at h
      | error e' =>
        rw [hrec] at h
        simp at h
        subst h
        exact ih (cur + 1) e' (by omega) hrec
    · rw [dif_neg hl] at h
      simp at h
      rw [← h]
      have hc : cur = lines.length := by omega
      rw [hc]

theorem copyN_ok_le (lines : List String) :
    ∀ (n cur : Nat) (out : List String) (c : Nat), cur ≤ lines.length →
      copyN lines cur n = .ok (out, c) → c ≤ lines.length := by
  intro n
  induction n with
  | zero =>
    intro cur out c hcur h
    simp [copyN] at h
    omega
  | succ k ih =>
    intro cur out c hcur h
    simp only [copyN] at h
    by_cases hl : cur < lines.length
    · rw [dif_pos hl] at h
      cases hrec : copyN lines (cur + 1) k with
      | ok p =>
        obtain ⟨o', c'⟩ := p
        rw [hrec] at h
        simp at h
        have := ih (cur + 1) o' c' (by omega) hrec
        omega
      | error e' => rw [hrec] at h; simp at h
    · rw [dif_neg hl] at h
      simp at h

theorem copyN_ok_eq (lines : List String) :
    ∀ (n cur : Nat), cur + n ≤ lines.length →
      copyN lines cur n = .ok ((lines.drop cur).take n, cur + n) := by
  intro n
  induction n with
  | zero => intro cur h; simp [copyN]
  | succ k ih =>
    intro cur h
    have hl : cur < lines.length := by omega
    simp only [copyN]
    rw [dif_pos hl, ih (cur + 1) (by omega)]
    have hdrop := List.drop_eq_getElem_cons hl
    rw [hdrop, List.take_succ_cons]
    simp only [List.get_eq_getElem]
    have harith : cur + 1 + k = cur + (k + 1) := by omega
    rw [harith]

/-- `copyUpTo` succeeds and copies exactly the window `[cur, target)` when
the target is ahead of the cursor and within bounds. -/
theorem copyUpTo_ok_eq (lines : List String) (cur target : Nat)
    (h1 : cur ≤ target) (h2 : target ≤ lines.length) :
    copyUpTo lines cur target = .ok ((lines.drop cur).take (target - cur), target) := by
  unfold copyUpTo
  rw [copyN_ok_eq lines (target - cur) cur (by omega)]
  have harith : cur + (target - cur) = target := by omega
  rw [harith]

end PatchRs

namespace PatchRs

theorem processHunkLines_oob (lines : List String) :
    ∀ (hl : List Line) (pos l t : Nat), pos ≤ lines.length →
      processHunkLines lines hl pos = .error (.lineOutOfBounds l t) →
      l = lines.length + 1 ∧ t = lines.length := by
  intro hl
  induction hl with
  | nil => intro pos l t _ h; simp [processHunkLines] at h
  | cons ln rest ih =>
    intro pos l t hpos h
    cases ln with
    | context txt =>
      simp only [processHunkLines] at h
      by_cases hl' : pos < lines.length
      · rw [dif_pos hl'] at h
        by_cases heq : lines.get ⟨pos, hl'⟩ = txt
        · rw [if_pos heq] at h
          cases hrec : processHunkLines lines rest (pos + 1) with
          | ok p => rw [hrec] at h; simp at h
          | error e' =>
            rw [hrec] at h
            simp at h
            exact ih (pos + 1) l t (by omega) (by rw [hrec, h])
        · rw [if_neg heq] at h
          simp at h
      · rw [dif_neg hl'] at h
        simp at h
        omega
    | add txt =>
      simp only [processHunkLines] at h
      cases hrec : processHunkLines lines rest pos with
      | ok p => rw [hrec] at h; simp at h
      | error e' =>
        rw [hrec] at h
        simp at h
        exact ih pos l t hpos (by rw [hrec, h])
    | remove txt =>
      simp only [processHunkLines] at h
      by_cases hl' : pos < lines.length
      · rw [dif_pos hl'] at h
        by_cases heq : lines.get ⟨pos, hl'⟩ = txt
        · rw [if_pos heq] at h
          exact ih (pos + 1) l t (by omega) h
        · rw [if_neg heq] at h
          simp at h
      · rw [dif_neg hl'] at h
        simp at h
        omega

theorem processHunkLines_ok_le (lines : List String) :
    ∀ (hl : List Line) (pos : Nat) (out : List String) (p : Nat), pos ≤ lines.length →
      processHunkLines lines hl pos = .ok (out, p) → p ≤ lines.length := by
  intro hl
  induction hl with
  | nil =>
    intro pos out p hpos h
    simp [processHunkLines] at h
    omega
  | cons ln rest ih =>
    intro pos out p hpos h
    cases ln with
    | context txt =>
      simp only [processHunkLines] at h
      by_cases hl' : pos < lines.length
      · rw [dif_pos hl'] at h
        by_cases heq : lines.get ⟨pos, hl'⟩ = txt
        · rw [if_pos heq] at h
          cases hrec : processHunkLines lines rest (pos + 1) with
          | ok q =>
            rw [hrec] at h
            obtain ⟨o', p'⟩ := q
            simp at h
            have := ih (pos + 1) o' p' (by omega) hrec
            omega
          | error e' => rw [hrec] at h; simp at h
        · rw [if_neg heq] at h; simp at h
      · rw [dif_neg hl'] at h; simp at h
    | add txt =>
      simp only [processHunkLines] at h
      cases hrec : processHunkLines lines rest pos with
      | ok q =>
        rw [hrec] at h
        obtain ⟨o', p'⟩ := q
        simp at h
        have := ih pos o' p' hpos hrec
        omega
      | error e' => rw [hrec] at h; simp at h
    | remove txt =>
      simp only [processHunkLines] at h
      by_cases hl' : pos < lines.length
      · rw [dif_pos hl'] at h
        by_cases heq : lines.get ⟨pos, hl'⟩ = txt
        · rw [if_pos heq] at h
          exact ih (pos + 1) out p (by omega) h
        · rw [if_neg heq] at h; simp at h
      · rw [dif_neg hl'] at h; simp at h

theorem processHunkLines_mismatch (lines : List String) :
    ∀ (hl : List Line) (pos l : Nat) (e a : String),
      processHunkLines lines hl pos = .error (.contextMismatch l e a) →
      1 ≤ l ∧ lines.get? (l - 1) = some a ∧ e ≠ a ∧
        (hl.any fun ln => ln == Line.context e || ln == Line.remove e) = true := by
  intro hl
  induction hl with
  | nil => intro pos l e a h; simp [processHunkLines] at h
  | cons ln rest ih =>
    intro pos l e a h
    cases ln with
    | context txt =>
      simp only [processHunkLines] at h
      by_cases hl' : pos < lines.length
      · rw [dif_pos hl'] at h
        by_cases heq : lines.get ⟨pos, hl'⟩ = txt
        · rw [if_pos heq] at h
          cases hrec : processHunkLines lines rest (pos + 1) with
          | ok p => rw [hrec] at h; simp at h
          | error e' =>
            rw [hrec] at h
            simp at h
            obtain ⟨h1, h2, h3, h4⟩ := ih (pos + 1) l e a (by rw [hrec, h])
            refine ⟨h1, h2, h3, ?_⟩
            simp [List.any_cons] at h4 ⊢
            exact Or.inr h4
        · rw [if_neg heq] at h
          simp at h
          obtain ⟨hle, hee, haa⟩ := h
          refine ⟨by omega, ?_, ?_, ?_⟩
          · have hlp : l - 1 = pos := by omega
            rw [hlp, List.get?_eq_get hl']
            simp only [List.get_eq_getElem]
            rw [haa]
          · rw [← hee, ← haa]
            simp only [List.get_eq_getElem] at heq
            exact fun hc => heq hc.symm
          · simp [List.any_cons, ← hee]
      · rw [dif_neg hl'] at h
        simp at h
    | add txt =>
      simp only [processHunkLines] at h
      cases hrec : processHunkLines lines rest pos with
      | ok p => rw [hrec] at h; simp at h
      | error e' =>
        rw [hrec] at h
        simp at h
        obtain ⟨h1, h2, h3, h4⟩ := ih pos l e a (by rw [hrec, h])
        refine ⟨h1, h2, h3, ?_⟩
        simp [List.any_cons] at h4 ⊢
        exact h4
    | remove txt =>
      simp only [processHunkLines] at h
      by_cases hl' : pos < lines.length
      · rw [dif_pos hl'] at h
        by_cases heq : lines.get ⟨pos, hl'⟩ = txt
        · rw [if_pos heq] at h
          obtain ⟨h1, h2, h3, h4⟩ := ih (pos + 1) l e a h
          refine ⟨h1, h2, h3, ?_⟩
          simp [List.any_cons] at h4 ⊢
          exact Or.inr h4
        · rw [if_neg heq] at h
          simp at h
          obtain ⟨hle, hee, haa⟩ := h
          refine ⟨by omega, ?_, ?_, ?_⟩
          · have hlp : l - 1 = pos := by omega
            rw [hlp, List.get?_eq_get hl']
            simp only [List.get_eq_getElem]
            rw [haa]
          · rw [← hee, ← haa]
            simp only [List.get_eq_getElem] at heq
            exact fun hc => heq hc.symm
          · simp [List.any_cons, ← hee]
      · rw [dif_neg hl'] at h
        simp at h

theorem applyHunks_oob (lines : List String) :
    ∀ (hunks : List Hunk) (cur l t : Nat), cur ≤ lines.length →
      applyHunks lines hunks cur = .error (.lineOutOfBounds l t) →
      l = lines.length + 1 ∧ t = lines.length := by
  intro hunks
  induction hunks with
  | nil => intro cur l t _ h; simp [applyHunks] at h
  | cons hk rest ih =>
    intro cur l t hcur h
    simp only [applyHunks] at h
    cases hc : copyUpTo lines cur (clampedStart hk) with
    | error e =>
      simp only [hc] at h
      simp at h
      have hc' : copyN lines cur (clampedStart hk - cur) = .error e := hc
      have hx := copyN_err_exact lines (clampedStart hk - cur) cur e hcur hc'
      rw [h] at hx
      simp at hx
      omega
    | ok p =>
      obtain ⟨pre, cur1⟩ := p
      simp only [hc] at h
      have hc' : copyN lines cur (clampedStart hk - cur) = .ok (pre, cur1) := hc
      have hc1 : cur1 ≤ lines.length :=
        copyN_ok_le lines (clampedStart hk - cur) cur pre cur1 hcur hc'
      cases hp : processHunkLines lines hk.lines cur1 with
      | error e =>
        simp only [hp] at h
        simp at h
        exact processHunkLines_oob lines hk.lines cur1 l t hc1 (by rw [hp, h])
      | ok q =>
        obtain ⟨mid, cur2⟩ := q
        simp only [hp] at h
        have hc2 : cur2 ≤ lines.length :=
          processHunkLines_ok_le lines hk.lines cur1 mid cur2 hc1 hp
        cases hr : applyHunks lines rest cur2 with
        | error e =>
          simp only [hr] at h
          simp at h
          exact ih cur2 l t hc2 (by rw [hr, h])
        | ok tl => simp only [hr] at h; simp at h

theorem applyHunks_mismatch (lines : List String) :
    ∀ (hunks : List Hunk) (cur l : Nat) (e a : String),
      applyHunks lines hunks cur = .error (.contextMismatch l e a) →
      1 ≤ l ∧ lines.get? (l - 1) = some a ∧ e ≠ a ∧
        (hunks.any fun hu =>
          hu.lines.any fun ln => ln == Line.context e || ln == Line.remove e) = true := by
  intro hunks
  induction hunks with
  | nil => intro cur l e a h; simp [applyHunks] at h
  | cons hk rest ih =>
    intro cur l e a h
    simp only [applyHunks] at h
    cases hc : copyUpTo lines cur (clampedStart hk) with
    | error e' =>
      simp only [hc] at h
      simp at h
      have hc' : copyN lines cur (clampedStart hk - cur) = .error e' := hc
      obtain ⟨l', t', hsh⟩ := copyN_err_shape lines (clampedStart hk - cur) cur e' hc'
      rw [hsh] at h
      simp at h
    | ok p =>
      obtain ⟨pre, cur1⟩ := p
      simp only [hc] at h
      cases hp : processHunkLines lines hk.lines cur1 with
      | error e' =>
        simp only [hp] at h
        simp at h
        obtain ⟨h1, h2, h3, h4⟩ :=
          processHunkLines_mismatch lines hk.lines cur1 l e a (by rw [hp, h])
        refine ⟨h1, h2, h3, ?_⟩
        simp [List.any_cons] at h4 ⊢
        exact Or.inl h4
      | ok q =>
        obtain ⟨mid, cur2⟩ := q
        simp only [hp] at h
        cases hr : applyHunks lines rest cur2 with
        | error e' =>
          simp only [hr] at h
          simp at h
          obtain ⟨h1, h2, h3, h4⟩ := ih cur2 l e a (by rw [hr, h])
          refine ⟨h1, h2, h3, ?_⟩
          simp [List.any_cons] at h4 ⊢
          exact Or.inr h4
        | ok tl => simp only [hr] at h; simp at h

/-- Claim C3 (code bug): when a non-empty old block is absent from the
working lines but fits, `find_replace_apply` fails with `HunkNotFound`;
when the old block is longer than the working lines, the claimed
`HunkNotFound` is not produced — the Rust code panics on the
out-of-bounds slice `content_lines[0..old_lines.len()]` instead. -/
theorem find_replace_hunkNotFound_eval :
    find_replace_apply notFoundPatch "line1\nline2\nline3" = .err .hunkNotFound ∧
    find_replace_apply tooLongPatch "line1" = .crashed := by
  exact ⟨by decide, by decide⟩

/-- Claim C4 (code bug): `apply` is total in this embedding, but
`find_replace_apply` does not always return a `Result`: on a hunk whose
old block is longer than the current content (here: removing a line from
empty content) the Rust code panics. -/
theorem find_replace_crash_eval :
    find_replace_apply removeOnEmptyPatch "" = .crashed := by decide

/-- Claim C5: spec scenario D fails with `LineOutOfBounds{line: 3, total_lines: 2}`,
and every `LineOutOfBounds` error reports `total_lines` equal to the exact
line count of the input. -/
theorem apply_lineOutOfBounds_reports_total :
    apply scenDPatch "A\nB\n" = .err (.lineOutOfBounds 3 2) ∧
    ∀ (p : Patch) (c : String) (l t : Nat),
      apply p c = .err (.lineOutOfBounds l t) → t = (splitLines c).length := by
  constructor
  · decide
  · intro p c l t h
    unfold apply at h
    cases ha : applyHunks (splitLines c) p.hunks 0 with
    | ok out => simp only [ha] at h; simp at h
    | error e =>
      simp only [ha] at h
      simp at h
      exact (applyHunks_oob (splitLines c) p.hunks 0 l t (by omega) (by rw [ha, h])).2

/-- Witness for C5, instantiating the quantified part at scenario D. -/
theorem apply_lineOutOfBounds_reports_total_witness :
    (2 : Nat) = (splitLines "A\nB\n").length :=
  apply_lineOutOfBounds_reports_total.2 scenDPatch "A\nB\n" 3 2 (by decide)

/-- Claim C10: every `LineOutOfBounds` error of `apply` has
`line = total_lines + 1` — the failure is always exactly one position past
the end of the input, because both cursors advance one line at a time and
are bounds-checked before each read. -/
theorem apply_lineOutOfBounds_one_past_end :
    ∀ (p : Patch) (c : String) (l t : Nat),
      apply p c = .err (.lineOutOfBounds l t) → l = t + 1 := by
  intro p c l t h
  unfold apply at h
  cases ha : applyHunks (splitLines c) p.hunks 0 with
  | ok out => simp only [ha] at h; simp at h
  | error e =>
    simp only [ha] at h
    simp at h
    have := applyHunks_oob (splitLines c) p.hunks 0 l t (by omega) (by rw [ha, h])
    omega

/-- Witness for C10: a hunk declared far past the end of a one-line input. -/
theorem apply_lineOutOfBounds_one_past_end_witness : (2 : Nat) = 1 + 1 :=
  apply_lineOutOfBounds_one_past_end farStartPatch "A" 2 1 (by decide)

/-- Claim C6: every `ContextMismatch` error of `apply` carries a 1-based
in-bounds line number, the exact input line as `actual`, an `expected`
text that differs from it and that is the text of some `Context` or
`Remove` entry of the patch. -/
theorem apply_contextMismatch_fields :
    ∀ (p : Patch) (c : String) (l : Nat) (e a : String),
      apply p c = .err (.contextMismatch l e a) →
      1 ≤ l ∧ (splitLines c).get? (l - 1) = some a ∧ e ≠ a ∧
        expectedFromPatch p e = true := by
  intro p c l e a h
  unfold apply at h
  cases ha : applyHunks (splitLines c) p.hunks 0 with
  | ok out => simp only [ha] at h; simp at h
  | error e' =>
    simp only [ha] at h
    simp at h
    have := applyHunks_mismatch (splitLines c) p.hunks 0 l e a (by rw [ha, h])
    simpa [expectedFromPatch] using this

/-- Witness for C6, at the repo's own context-mismatch test vector. -/
theorem apply_contextMismatch_fields_witness :
    1 ≤ 2 ∧ (splitLines "A\nB\nC\n").get? (2 - 1) = some "B" ∧ "X" ≠ "B" ∧
      expectedFromPatch mismatchPatch "X" = true :=
  apply_contextMismatch_fields mismatchPatch "A\nB\nC\n" 2 "X" "B" (by decide)

end PatchRs

namespace PatchRs

theorem processHunkLines_ok (lines : List String) :
    ∀ (hl : List Line) (pos : Nat),
      pos + (oldTexts hl).length ≤ lines.length →
      (lines.drop pos).take (oldTexts hl).length = oldTexts hl →
      processHunkLines lines hl pos = .ok (newTexts hl, pos + (oldTexts hl).length) := by
  intro hl
  induction hl with
  | nil => intro pos _ _; simp [processHunkLines, oldTexts, newTexts]
  | cons ln rest ih =>
    intro pos hlen hwin
    cases ln with
    | context txt =>
      simp only [oldTexts, List.length_cons] at hlen hwin
      have hp : pos < lines.length := by omega
      rw [List.drop_eq_getElem_cons hp, List.take_succ_cons] at hwin
      simp only [List.cons.injEq] at hwin
      obtain ⟨h1, h2⟩ := hwin
      simp only [processHunkLines]
      rw [dif_pos hp, if_pos (by simp only [List.get_eq_getElem]; exact h1)]
      rw [ih (pos + 1) (by omega) h2]
      simp only [newTexts, oldTexts, List.length_cons]
      have harith : pos + 1 + (oldTexts rest).length = pos + ((oldTexts rest).length + 1) := by
        omega
      rw [harith]
    | add txt =>
      simp only [oldTexts] at hlen hwin
      simp only [processHunkLines]
      rw [ih pos hlen hwin]
      simp only [newTexts, oldTexts]
    | remove txt =>
      simp only [oldTexts, List.length_cons] at hlen hwin
      have hp : pos < lines.length := by omega
      rw [List.drop_eq_getElem_cons hp, List.take_succ_cons] at hwin
      simp only [List.cons.injEq] at hwin
      obtain ⟨h1, h2⟩ := hwin
      simp only [processHunkLines]
      rw [dif_pos hp, if_pos (by simp only [List.get_eq_getElem]; exact h1)]
      rw [ih (pos + 1) (by omega) h2]
      simp only [newTexts, oldTexts, List.length_cons]
      have harith : pos + 1 + (oldTexts rest).length = pos + ((oldTexts rest).length + 1) := by
        omega
      rw [harith]

theorem applyHunks_ok (lines : List String) :
    ∀ (hunks : List Hunk) (cur : Nat), seqOrdered cur hunks = true →
      (∀ h ∈ hunks, DeclaredMatch lines h) →
      applyHunks lines hunks cur = .ok (specReplaceBlocks lines hunks cur) := by
  intro hunks
  induction hunks with
  | nil => intro cur _ _; simp [applyHunks, specReplaceBlocks]
  | cons hk rest ih =>
    intro cur hord hmatch
    simp only [seqOrdered, Bool.and_eq_true, decide_eq_true_eq] at hord
    obtain ⟨hcs, hord'⟩ := hord
    obtain ⟨hlen, hwin⟩ := hmatch hk (by simp)
    simp only [applyHunks]
    simp only [copyUpTo_ok_eq lines cur (clampedStart hk) hcs (by omega)]
    rw [processHunkLines_ok lines hk.lines (clampedStart hk) hlen hwin]
    simp only [specReplaceBlocks, newLines, oldLines]
    rw [ih (clampedStart hk + (oldTexts hk.lines).length) hord'
      (fun h hm => hmatch h (List.mem_cons_of_mem _ hm))]

/-- Claim C1 (amended): for every patch whose hunks are sequentially
ordered (each clamped start at or past the end of the previous hunk's old
block) and every input in which each hunk's `Context`/`Remove` block sits
exactly at its declared (1-based, clamped) position, `apply` succeeds and
the result is the input with each old block replaced by the hunk's new
block, surrounding lines copied through, modulo the `end_newline` rule. -/
theorem apply_ordered_declared_ok :
    ∀ (p : Patch) (c : String), seqOrdered 0 p.hunks = true →
      DeclaredMatchAll (splitLines c) p →
      apply p c =
        .ok (endAdjust p.end_newline
          (joinLines (specReplaceBlocks (splitLines c) p.hunks 0))) := by
  intro p c hord hmatch
  unfold apply
  rw [applyHunks_ok (splitLines c) p.hunks 0 hord hmatch]

/-- Counterexample to claim C1 as stated: both hunks of `unorderedPatch`
match the input `"A\nB"` at their declared (1-based, clamped) positions,
yet `apply` does not succeed — it fails with `LineOutOfBounds`, because
the second hunk is matched at the cursor left by the first, not at its
declared position. -/
theorem apply_declared_positions_cex :
    DeclaredMatchAll (splitLines "A\nB") unorderedPatch ∧
    apply unorderedPatch "A\nB" = .err (.lineOutOfBounds 3 2) := by
  exact ⟨by decide, by decide⟩

/-- Witness for C1 at spec scenario A, with the resulting string evaluated. -/
theorem apply_ordered_declared_ok_witness :
    apply scenAPatch "line 1\nline 2\nline 3\n" =
      .ok (endAdjust true (joinLines
        (specReplaceBlocks (splitLines "line 1\nline 2\nline 3\n") scenAPatch.hunks 0))) ∧
    endAdjust true (joinLines
        (specReplaceBlocks (splitLines "line 1\nline 2\nline 3\n") scenAPatch.hunks 0)) =
      "line 1\nnew line 2\nline 3\n" :=
  ⟨apply_ordered_declared_ok scenAPatch "line 1\nline 2\nline 3\n" (by decide) (by decide),
    by decide⟩

end PatchRs

namespace PatchRs

/-! ### Characterizing the candidate scan of the fuzzy applier -/

theorem scanFold_succ (content old : List String) (target n : Nat) :
    scanFold content old target (n + 1) =
      scanStep content old target (scanFold content old target n) n := by
  unfold scanFold
  rw [List.range_succ, List.foldl_append]
  rfl

theorem scanFold_spec (content old : List String) (target : Nat) :
    ∀ n,
      (scanFold content old target n = none →
        ∀ j, j < n → ¬ (content.drop j).take old.length = old) ∧
      (∀ i d, scanFold content old target n = some (i, d) →
        i < n ∧ (content.drop i).take old.length = old ∧ d = natDist i target ∧
        ∀ j, j < n → (content.drop j).take old.length = old →
          natDist i target < natDist j target ∨
            (natDist i target = natDist j target ∧ i ≤ j)) := by
  intro n
  induction n with
  | zero =>
    constructor
    · intro _ j hj
      exact absurd hj (by omega)
    · intro i d h
      simp [scanFold] at h
  | succ k ih =>
    rw [scanFold_succ]
    constructor
    · intro hnone j hj hw
      by_cases hwk : (content.drop k).take old.length = old
      · unfold scanStep at hnone
        rw [if_pos hwk] at hnone
        cases hbest : scanFold content old target k with
        | none => rw [hbest] at hnone; simp at hnone
        | some p =>
          obtain ⟨bi, bd⟩ := p
          simp only [hbest] at hnone
          split at hnone <;> simp at hnone
      · unfold scanStep at hnone
        rw [if_neg hwk] at hnone
        have hjk : j < k ∨ j = k := by omega
        rcases hjk with hj' | hj'
        · exact (ih.1 hnone) j hj' hw
        · exact hwk (hj' ▸ hw)
    · intro i d h
      by_cases hwk : (content.drop k).take old.length = old
      · unfold scanStep at h
        rw [if_pos hwk] at h
        cases hbest : scanFold content old target k with
        | none =>
          rw [hbest] at h
          simp at h
          obtain ⟨h1, h2⟩ := h
          subst h1
          subst h2
          refine ⟨by omega, hwk, rfl, ?_⟩
          intro j hj hw
          have hjk : j < k ∨ j = k := by omega
          rcases hjk with hj' | hj'
          · exact absurd hw ((ih.1 hbest) j hj')
          · subst hj'
            exact Or.inr ⟨rfl, Nat.le_refl _⟩
        | some p =>
          obtain ⟨bi, bd⟩ := p
          simp only [hbest] at h
          obtain ⟨hbilt, hbw, hbd, hbmin⟩ := ih.2 bi bd hbest
          by_cases hlt : natDist k target < bd
          · rw [if_pos hlt] at h
            simp at h
            obtain ⟨h1, h2⟩ := h
            subst h1
            subst h2
            refine ⟨by omega, hwk, rfl, ?_⟩
            intro j hj hw
            have hjk : j < k ∨ j = k := by omega
            rcases hjk with hj' | hj'
            · rcases hbmin j hj' hw with hx | ⟨hx, _⟩
              · left; omega
              · left; omega
            · subst hj'
              exact Or.inr ⟨rfl, Nat.le_refl _⟩
          · rw [if_neg hlt] at h
            simp at h
            obtain ⟨h1, h2⟩ := h
            subst h1
            subst h2
            refine ⟨by omega, hbw, hbd, ?_⟩
            intro j hj hw
            have hjk : j < k ∨ j = k := by omega
            rcases hjk with hj' | hj'
            · exact hbmin j hj' hw
            · subst hj'
              have hge : bd ≤ natDist j target := by omega
              rcases Nat.lt_or_ge bd (natDist j target) with hx | hx
              · left; omega
              · right
                constructor
                · omega
                · omega
      · unfold scanStep at h
        rw [if_neg hwk] at h
        obtain ⟨hbilt, hbw, hbd, hbmin⟩ := ih.2 i d h
        refine ⟨by omega, hbw, hbd, ?_⟩
        intro j hj hw
        have hjk : j < k ∨ j = k := by omega
        rcases hjk with hj' | hj'
        · exact hbmin j hj' hw
        · subst hj'
          exact absurd hw hwk

theorem window_isMatch (content old : List String) (j : Nat) (hj : j ≤ content.length)
    (hw : (content.drop j).take old.length = old) : IsMatch content old j := by
  refine ⟨?_, hw⟩
  have hlen := congrArg List.length hw
  simp [List.length_take, List.length_drop] at hlen
  omega

theorem scanBest_sound (content old : List String) (target i : Nat)
    (h : scanBest content old target = some i) :
    IsMatch content old i ∧
      ∀ j, IsMatch content old j →
        natDist i target < natDist j target ∨
          (natDist i target = natDist j target ∧ i ≤ j) := by
  unfold scanBest at h
  cases hf : scanFold content old target (content.length - old.length + 1) with
  | none => rw [hf] at h; simp at h
  | some p =>
    obtain ⟨i', d⟩ := p
    rw [hf] at h
    simp at h
    subst h
    obtain ⟨hilt, hw, hd, hmin⟩ := (scanFold_spec content old target _).2 i' d hf
    have hile : i' ≤ content.length := by omega
    refine ⟨window_isMatch content old i' hile hw, ?_⟩
    intro j hj
    have hjb : j < content.length - old.length + 1 := by
      obtain ⟨hjl, _⟩ := hj
      omega
    exact hmin j hjb hj.2

theorem scanBest_isSome (content old : List String) (target j : Nat)
    (hj : IsMatch content old j) : (scanBest content old target).isSome = true := by
  unfold scanBest
  cases hf : scanFold content old target (content.length - old.length + 1) with
  | some p => simp
  | none =>
    exfalso
    obtain ⟨hjl, hjw⟩ := hj
    exact (scanFold_spec content old target _).1 hf j (by omega) hjw

end PatchRs

namespace PatchRs

/-- Claim C2: the fuzzy applier's per-hunk selection — spec scenario C picks
offset 1 (distance 0 to the declared start); whenever the scan returns an
offset it is a genuine occurrence that minimizes `|i - old_range.start|`
over all occurrences with ties going to the lower index (so a unique
occurrence is always the one used); and whenever any occurrence exists the
scan returns one. -/
theorem find_replace_nearest_selection :
    find_replace_apply scenCPatch "line1\nline2\nline3\nline2\nline3" =
      .ok "line1\nnew2\nnew3\nline2\nline3" ∧
    (∀ (content old : List String) (target i : Nat),
      scanBest content old target = some i →
        IsMatch content old i ∧
        ∀ j, IsMatch content old j →
          natDist i target < natDist j target ∨
            (natDist i target = natDist j target ∧ i ≤ j)) ∧
    (∀ (content old : List String) (target j : Nat),
      IsMatch content old j → (scanBest content old target).isSome = true) :=
  ⟨by decide, fun content old target i h => scanBest_sound content old target i h,
    fun content old target j hj => scanBest_isSome content old target j hj⟩

/-- Witness for C2: the two occurrences of scenario C's old block are at
offsets 1 and 3; the chosen offset 1 is an occurrence and beats offset 3. -/
theorem find_replace_nearest_selection_witness :
    IsMatch ["line1", "line2", "line3", "line2", "line3"] ["line2", "line3"] 1 ∧
    (natDist 1 1 < natDist 3 1 ∨ (natDist 1 1 = natDist 3 1 ∧ 1 ≤ 3)) := by
  have h := find_replace_nearest_selection.2.1 ["line1", "line2", "line3", "line2", "line3"]
    ["line2", "line3"] 1 1 (by decide)
  exact ⟨h.1, h.2 3 (by decide)⟩

/-- Claim C9: a hunk with no `Context` and no `Remove` lines (empty old
block) always succeeds in the fuzzy applier's per-hunk step, inserting its
new block at offset `min old_range.start (working length)` and removing
nothing. -/
theorem frStep_empty_old_insert :
    ∀ (h : Hunk) (content : List String), oldLines h = [] →
      frStep content h =
        .next (content.take (min h.old_range.start content.length) ++ newLines h ++
          content.drop (min h.old_range.start content.length)) := by
  intro h content hemp
  have hm : IsMatch content (oldLines h) (min h.old_range.start content.length) := by
    constructor
    · rw [hemp]
      simp
    · rw [hemp]
      simp
  have hsb : scanBest content (oldLines h) h.old_range.start
      = some (min h.old_range.start content.length) := by
    have hs := scanBest_isSome content (oldLines h) h.old_range.start _ hm
    obtain ⟨i, hi⟩ := Option.isSome_iff_exists.mp hs
    obtain ⟨him, hmin⟩ := scanBest_sound content (oldLines h) h.old_range.start i hi
    have hilen : i ≤ content.length := by
      have := him.1
      rw [hemp] at this
      simpa using this
    have hieq : i = min h.old_range.start content.length := by
      rcases hmin _ hm with hlt | ⟨heq, hle⟩
      · exfalso
        simp only [natDist] at hlt
        split_ifs at hlt <;> omega
      · simp only [natDist] at heq
        split_ifs at heq <;> omega
    rw [← hieq]
    exact hi
  simp only [frStep]
  rw [hemp]
  rw [if_neg (by simp)]
  rw [hemp] at hsb
  rw [hsb]
  simp

/-- Witness for C9: inserting `"x"` (no context, no removals, declared
start 2) into `["a","b","c"]` lands at clamped offset 2. -/
theorem frStep_empty_old_insert_witness :
    frStep ["a", "b", "c"] insertHunk =
      .next ((["a", "b", "c"] : List String).take (min insertHunk.old_range.start 3) ++
        newLines insertHunk ++
        (["a", "b", "c"] : List String).drop (min insertHunk.old_range.start 3)) ∧
    frStep ["a", "b", "c"] insertHunk = .next ["a", "b", "x", "c"] :=
  ⟨frStep_empty_old_insert insertHunk ["a", "b", "c"] (by decide), by decide⟩

end PatchRs

namespace PatchRs

/-! ### The trailing-terminator adjustment and the no-op patch -/

theorem endAdjust_false_eq (x : String) : endAdjust false x = x := by
  simp [endAdjust]

theorem endAdjust_true_eq (x : String) :
    endAdjust true x = if x = "" then x else x ++ "\n" := by
  by_cases hx : x = ""
  · subst hx
    simp [endAdjust]
    decide
  · have hxe : x.isEmpty = false := by
      cases hb : x.isEmpty with
      | false => rfl
      | true => exact absurd ((String.isEmpty_iff x).mp hb) hx
    simp [endAdjust, hxe, hx]

/-- Claim C7: `apply`'s `Ok` result with `end_newline = true` is exactly the
`end_newline = false` result with one terminator appended iff non-empty,
while `find_replace_apply` ignores `end_newline` entirely and, on a no-op
patch, returns exactly the working lines joined by single terminators. -/
theorem end_newline_contract :
    (∀ (hunks : List Hunk) (c s : String),
      apply ⟨hunks, false⟩ c = .ok s →
        apply ⟨hunks, true⟩ c = .ok (if s = "" then s else s ++ "\n")) ∧
    (∀ (hunks : List Hunk) (c : String),
      find_replace_apply ⟨hunks, true⟩ c = find_replace_apply ⟨hunks, false⟩ c) ∧
    (∀ c : String, find_replace_apply ⟨[], true⟩ c = .ok (joinLines (splitLines c))) := by
  refine ⟨?_, fun hunks c => rfl, fun c => rfl⟩
  intro hunks c s h
  unfold apply at h ⊢
  cases ha : applyHunks (splitLines c) hunks 0 with
  | error e =>
    simp only [ha] at h
    exact absurd h (by simp)
  | ok out =>
    simp only [ha] at h ⊢
    rw [endAdjust_false_eq] at h
    simp at h
    subst h
    rw [endAdjust_true_eq]

/-- Witness for C7: a no-op patch on `"a\n"` gives `"a"` without the flag
and `"a\n"` with it. -/
theorem end_newline_contract_witness :
    apply ⟨[], true⟩ "a\n" = .ok (if "a" = "" then "a" else "a" ++ "\n") :=
  end_newline_contract.1 [] "a\n" "a" (by decide)

theorem stripCR_of_not_mem (acc : List Char) (h : '\r' ∉ acc) : stripCR acc = acc := by
  cases acc with
  | nil => rfl
  | cons c cs =>
    have hc : c ≠ '\r' := by
      intro hh
      subst hh
      exact h (List.mem_cons_self _ _)
    simp [stripCR, hc]

theorem joinLines_cons_of_ne_nil (x : String) (xs : List String) (h : xs ≠ []) :
    joinLines (x :: xs) = x ++ "\n" ++ joinLines xs := by
  cases xs with
  | nil => exact absurd rfl h
  | cons y ys => rfl

theorem linesAux_ne_nil : ∀ (cs acc : List Char), cs ≠ [] → linesAux cs acc ≠ [] := by
  intro cs
  induction cs with
  | nil => intro acc h; exact absurd rfl h
  | cons c cs' ih =>
    intro acc _
    simp only [linesAux]
    by_cases hc : c = '\n'
    · rw [if_pos hc]
      simp
    · rw [if_neg hc]
      cases cs' with
      | nil => simp [linesAux]
      | cons d ds => exact ih (c :: acc) (by simp)

theorem joinLines_linesAux :
    ∀ (l acc : List Char), '\r' ∉ l → '\r' ∉ acc →
      (joinLines (linesAux l acc)).data = acc.reverse ++ stripLastNL l := by
  intro l
  induction l with
  | nil =>
    intro acc _ _
    simp only [linesAux, stripLastNL]
    cases acc with
    | nil => simp [joinLines]
    | cons a as => simp [joinLines]
  | cons c cs ih =>
    intro acc hl hacc
    have hc_r : c ≠ '\r' := by
      intro hh
      subst hh
      exact hl (List.mem_cons_self _ _)
    have hl' : '\r' ∉ cs := fun hh => hl (List.mem_cons_of_mem _ hh)
    simp only [linesAux]
    by_cases hc : c = '\n'
    · rw [if_pos hc]
      rw [stripCR_of_not_mem acc hacc]
      subst hc
      cases cs with
      | nil => simp [linesAux, joinLines, stripLastNL]
      | cons d ds =>
        have hne := linesAux_ne_nil (d :: ds) [] (by simp)
        rw [joinLines_cons_of_ne_nil _ _ hne]
        rw [String.data_append, String.data_append]
        rw [ih [] hl' (by simp)]
        have hs : stripLastNL ('\n' :: d :: ds) = '\n' :: stripLastNL (d :: ds) := by
          simp [stripLastNL]
        rw [hs]
        simp
    · rw [if_neg hc]
      rw [ih (c :: acc) hl' (by
        intro hh
        rcases List.mem_cons.mp hh with h1 | h1
        · exact hc_r h1.symm
        · exact hacc h1)]
      have hs : stripLastNL (c :: cs) = c :: stripLastNL cs := by
        simp only [stripLastNL]
        rw [if_neg]
        rintro ⟨h1, _⟩
        exact hc h1
      rw [hs]
      simp

theorem joinLines_splitLines (c : String) (h : '\r' ∉ c.data) :
    joinLines (splitLines c) = String.mk (stripLastNL c.data) := by
  apply String.ext
  have := joinLines_linesAux c.data [] h (by simp)
  simpa using this

/-- Counterexample to claim C8 as stated over every content string: on the
no-op patch, an input containing a CRLF terminator is not returned
unchanged — the mid-string `"\r\n"` is rewritten to `"\n"`, which is more
than trailing-terminator normalization (the claim-predicted value for
`end_newline = false` is the input itself). -/
theorem apply_noop_crlf_cex :
    apply ⟨[], false⟩ "a\r\nb" = .ok "a\nb" ∧
    endAdjust false (String.mk (stripLastNL ("a\r\nb").data)) = "a\r\nb" ∧
    ("a\nb" : String) ≠ "a\r\nb" := by
  exact ⟨by decide, by decide, by decide⟩

/-- Claim C8 (amended): for every content string in the single-terminator
convention (no carriage returns), applying a zero-hunk patch returns the
input unchanged modulo normalizing the trailing terminator to the patch's
`end_newline` flag. -/
theorem apply_noop_identity :
    ∀ (en : Bool) (c : String), '\r' ∉ c.data →
      apply ⟨[], en⟩ c = .ok (endAdjust en (String.mk (stripLastNL c.data))) := by
  intro en c h
  have h0 : apply ⟨[], en⟩ c = .ok (endAdjust en (joinLines (splitLines c))) := rfl
  rw [h0, joinLines_splitLines c h]

/-- Witness for C8: a `"\n"`-terminated two-line input with
`end_newline = true` comes back verbatim. -/
theorem apply_noop_identity_witness :
    apply ⟨[], true⟩ "line 1\nline 2\n" =
      .ok (endAdjust true (String.mk (stripLastNL ("line 1\nline 2\n").data))) ∧
    endAdjust true (String.mk (stripLastNL ("line 1\nline 2\n").data)) = "line 1\nline 2\n" :=
  ⟨apply_noop_identity true "line 1\nline 2\n" (by decide), by decide⟩

end PatchRs
